import Mathlib

/-!
Verification of `webob/etag.py`: parsing, matching and serialization of the
HTTP conditional-request header values `ETag`, `If-Match`, `If-None-Match`
and `If-Range`.

The Python code works on ordinary strings; we embed it over `List Char`
(the character sequence of the string), translating each string primitive
(`split(sep, 1)`, `strip(chars)`, `startswith`, `endswith`, `lower`) into an
executable Lean function with the same semantics.  The three result classes
`_AnyETag`, `_NoETag` and `ETagMatcher` become the three constructors of the
inductive type `ETagVal`; the singletons `AnyETag`/`NoETag` are the nullary
constructors, so identity-distinctness is constructor-distinctness.
The external collaborators `parse_date`/`serialize_date` (explicitly out of
scope in `webob.datetime_utils`) are passed as function parameters, and
timestamps are modelled as integers; a Python `datetime` value is always
truthy, so "a last-modified value is present" is modelled with `Option`.
-/

/-- An entity tag: the raw tag text of a header element, as a character
sequence. -/
abbrev Etag := List Char

/-- `l.split(sep, 1)` on character lists: `some (before, after)` split at the
first occurrence of `sep`, or `none` when `sep` does not occur (the case in
which Python's 2-place unpacking raises `ValueError`). -/
def splitOnce (sep : Char) : List Char → Option (List Char × List Char)
  | [] => none
  | c :: cs =>
    if c = sep then some ([], cs)
    else
      match splitOnce sep cs with
      | some (a, b) => some (c :: a, b)
      | none => none

/-- Python `str.strip(chars)`: remove from both ends every character that
occurs in `cs`. -/
def stripChars (cs : List Char) (l : List Char) : List Char :=
  ((l.dropWhile (fun c => cs.contains c)).reverse.dropWhile (fun c => cs.contains c)).reverse

/-- The whitespace characters stripped by Python's no-argument `str.strip()`. -/
def pyWhitespace : List Char := [' ', '\t', '\n', '\r', '\x0b', '\x0c']

/-- Python `str.strip()` with no argument: strip ASCII whitespace from both
ends. -/
def stripDefault (l : List Char) : List Char := stripChars pyWhitespace l

/-- `value.lower().startswith('w/')` from `ETagMatcher.parse`. -/
def lowerStartsWithW (value : List Char) : Bool :=
  List.isPrefixOf ['w', '/'] (value.map Char.toLower)

/-- One tag extraction of the loop body of `ETagMatcher.parse`, after the
optional `W/` marker has been consumed: returns `(etag, rest)`.

* If the text starts with `"`, split the remainder at the next `"`; on
  success the rest is stripped of surrounding `, ` characters; when there is
  no closing quote (Python's `ValueError` branch) the whole text stripped of
  surrounding ` ",` characters is the tag and parsing of the rest stops.
* Otherwise split at the first `,` (rest stripped of whitespace), or, with no
  comma, the whole text is the tag. -/
def extractTag (value : List Char) : List Char × List Char :=
  if value.head? = some '"' then
    match splitOnce '"' value.tail with
    | some (etag, rest) => (etag, stripChars [',', ' '] rest)
    | none => (stripChars [' ', '"', ','] value, [])
  else
    match splitOnce ',' value with
    | some (etag, rest) => (etag, stripDefault rest)
    | none => (value, [])

/-- One full iteration of the `while value:` loop of `ETagMatcher.parse`:
consume an optional case-insensitive `W/` marker, then extract one tag.
Returns `(weak, etag, rest)`. -/
def parseStep (value : List Char) : Bool × List Char × List Char :=
  let weak := lowerStartsWithW value
  let v := if weak then value.drop 2 else value
  (weak, (extractTag v).1, (extractTag v).2)

theorem splitOnce_some_length {sep : Char} {l a b : List Char}
    (h : splitOnce sep l = some (a, b)) : a.length + 1 + b.length = l.length := by
  induction l generalizing a b with
  | nil => simp [splitOnce] at h
  | cons c cs ih =>
    simp only [splitOnce] at h
    by_cases hc : c = sep
    · simp [hc] at h
      obtain ⟨ha, hb⟩ := h
      subst ha; subst hb
      simp
      omega
    · simp [hc] at h
      cases hsp : splitOnce sep cs with
      | none => rw [hsp] at h; simp at h
      | some p =>
        rw [hsp] at h
        cases p with
        | mk a' b' =>
          simp at h
          obtain ⟨ha, hb⟩ := h
          subst ha; subst hb
          have := ih hsp
          simp [List.length_cons]
          omega

theorem dropWhile_length_le (p : Char → Bool) (l : List Char) :
    (l.dropWhile p).length ≤ l.length := by
  induction l with
  | nil => simp
  | cons a as ih =>
    by_cases h : p a <;> simp [List.dropWhile_cons, h] <;> omega

theorem stripChars_length_le (cs l : List Char) : (stripChars cs l).length ≤ l.length := by
  unfold stripChars
  have h1 : (l.dropWhile (fun c => cs.contains c)).length ≤ l.length :=
    dropWhile_length_le _ l
  have h2 := dropWhile_length_le (fun c => cs.contains c)
    (l.dropWhile (fun c => cs.contains c)).reverse
  rw [List.length_reverse] at h2
  rw [List.length_reverse]
  omega

theorem extractTag_rest (v : List Char) :
    (extractTag v).2 = [] ∨ (extractTag v).2.length < v.length := by
  unfold extractTag
  by_cases hq : v.head? = some '"'
  · simp [hq]
    cases hsp : splitOnce '"' v.tail with
    | none => simp
    | some p =>
      cases p with
      | mk a b =>
        simp
        right
        have hlen := splitOnce_some_length hsp
        have hle := stripChars_length_le [',', ' '] b
        have hv : v.tail.length + 1 = v.length := by
          cases v with
          | nil => simp [List.head?] at hq
          | cons x xs => simp
        omega
  · simp [hq]
    cases hsp : splitOnce ',' v with
    | none => simp
    | some p =>
      cases p with
      | mk a b =>
        simp
        right
        have hlen := splitOnce_some_length hsp
        have hle := stripChars_length_le pyWhitespace b
        unfold stripDefault
        omega

/-- Each iteration of the parse loop strictly shrinks the remaining text. -/
theorem parseStep_rest_length (value : List Char) (h : value ≠ []) :
    (parseStep value).2.2.length < value.length := by
  unfold parseStep
  simp only []
  by_cases hw : lowerStartsWithW value = true
  · simp [hw]
    have hlen2 : 2 ≤ value.length := by
      unfold lowerStartsWithW at hw
      cases value with
      | nil => simp [List.isPrefixOf] at hw
      | cons a as =>
        cases as with
        | nil => simp [List.isPrefixOf] at hw
        | cons b bs => simp
    rcases extractTag_rest (value.drop 2) with he | he
    · rw [he]; simp; omega
    · have : (value.drop 2).length = value.length - 2 := by simp
      omega
  · simp [hw]
    rcases extractTag_rest value with he | he
    · rw [he]
      simp
      exact List.length_pos.mpr h
    · exact he

/-- The three values a parsed ETag-style header can take: the `_AnyETag`
singleton `AnyETag` (`*`), the `_NoETag` singleton `NoETag` (absent header),
and an `ETagMatcher` holding its `etags` and `weak_etags` lists. -/
inductive ETagVal : Type where
  | anyETag : ETagVal
  | noETag : ETagVal
  | matcher (etags : List Etag) (weak_etags : List Etag) : ETagVal
deriving DecidableEq

/-- `__contains__` of the three classes applied to a tag string:
`_AnyETag.__contains__` is constantly true, `_NoETag.__contains__` is
constantly false, and `ETagMatcher.__contains__(other)` is
`other in self.etags or other in self.weak_etags`. -/
def ETagVal.containsTag : ETagVal → Etag → Bool
  | .anyETag, _ => true
  | .noETag, _ => false
  | .matcher s w, t => s.contains t || w.contains t

/-- `__contains__` applied to an optional tag (`IfRange.match` defaults its
`etag` argument to `None`; `None in AnyETag` is true, while `None` is never
an element of a list of strings). -/
def ETagVal.containsOptTag : ETagVal → Option Etag → Bool
  | v, some t => v.containsTag t
  | .anyETag, none => true
  | .noETag, none => false
  | .matcher _ _, none => false

/-- The `while value:` loop of `ETagMatcher.parse`, carrying the `results`
and `weak_results` accumulators: stop on empty text; return `AnyETag` the
moment an extracted tag is exactly `*`; append a non-empty tag to the weak
or strong list per its `W/` marker; drop an empty tag. -/
def parseLoop (results weak_results : List Etag) (value : List Char) : ETagVal :=
  if h : value = [] then .matcher results weak_results
  else if (parseStep value).2.1 = ['*'] then .anyETag
  else if (parseStep value).2.1 = [] then parseLoop results weak_results (parseStep value).2.2
  else if (parseStep value).1 then
    parseLoop results (weak_results ++ [(parseStep value).2.1]) (parseStep value).2.2
  else parseLoop (results ++ [(parseStep value).2.1]) weak_results (parseStep value).2.2
termination_by value.length
decreasing_by
  all_goals exact parseStep_rest_length value h

/-- `ETagMatcher.parse`: run the loop from two empty accumulators. -/
def ETagMatcher.parse (value : List Char) : ETagVal := parseLoop [] [] value

/-- The comma-separated elements of a header value under the parse grammar:
the sequence of non-empty tag bodies extracted by successive `parseStep`s,
with no strong/weak distinction.  This is the reference reading of "`t`
appears as a quoted or unquoted comma-separated element of `value`". -/
def elements (value : List Char) : List Etag :=
  if h : value = [] then []
  else if (parseStep value).2.1 = [] then elements (parseStep value).2.2
  else (parseStep value).2.1 :: elements (parseStep value).2.2
termination_by value.length
decreasing_by
  all_goals exact parseStep_rest_length value h

/-- `'"%s"' % tag`: one strong tag as rendered by `ETagMatcher.__str__`. -/
def quoteItem (t : Etag) : List Char := '"' :: (t ++ ['"'])

/-- `'W/"%s"' % tag`: one weak tag as rendered by `ETagMatcher.__str__`. -/
def weakQuoteItem (t : Etag) : List Char := 'W' :: '/' :: '"' :: (t ++ ['"'])

/-- `', '.join(items)` on character lists. -/
def joinCS : List (List Char) → List Char
  | [] => []
  | [x] => x
  | x :: xs => x ++ ',' :: ' ' :: joinCS xs

/-- `ETagMatcher.__str__`: build `items` by mapping the strong tags through
`'"%s"'` and then appending `'W/"%s"'` for each weak tag (the imperative
`for` loop is a left fold), and join with `', '`. -/
def ETagMatcher.strOf (etags weak_etags : List Etag) : List Char :=
  joinCS (weak_etags.foldl (fun items w => items ++ [weakQuoteItem w]) (etags.map quoteItem))

/-- The two classes an `If-Range` header parses to: `IfRange` holding an
ETag-style value, or `IfRangeDate` holding a timestamp. -/
inductive IfRangeVal : Type where
  | ifRange (etag : ETagVal) : IfRangeVal
  | ifRangeDate (date : Int) : IfRangeVal
deriving DecidableEq

/-- `IfRange.parse`, parameterized by the external date parser `parse_date`:
empty value gives `IfRange(AnyETag)`; a value ending in `" GMT"` gives
`IfRangeDate(parse_date(value))`; anything else gives
`IfRange(ETagMatcher.parse(value))`. -/
def IfRange.parse (parse_date : List Char → Int) (value : List Char) : IfRangeVal :=
  if value = [] then .ifRange .anyETag
  else if List.isSuffixOf [' ', 'G', 'M', 'T'] value then .ifRangeDate (parse_date value)
  else .ifRange (ETagMatcher.parse value)

/-- A `last_modified` argument of `IfRange.match`/`IfRangeDate.match`: either
a textual HTTP date or an already-parsed timestamp. -/
inductive LastModified : Type where
  | str (s : List Char) : LastModified
  | time (t : Int) : LastModified
deriving DecidableEq

/-- The timestamp of a `last_modified` argument: textual values go through
the external date parser first (`if isinstance(last_modified, str):
last_modified = parse_date(last_modified)`). -/
def lmValue (parse_date : List Char → Int) : LastModified → Int
  | .str s => parse_date s
  | .time t => t

/-- `match(etag, last_modified)` of the two `If-Range` classes.
`IfRange.match` returns `etag in self.etag` and ignores `last_modified`;
`IfRangeDate.match` parses a textual `last_modified` and returns
`last_modified and (last_modified <= self.date)` — a parsed date value
(a Python `datetime`) is always truthy, so the result is true iff a
last-modified value is present and at most the held date. -/
def IfRangeVal.matchCond (parse_date : List Char → Int) :
    IfRangeVal → Option Etag → Option LastModified → Bool
  | .ifRange et, tag, _ => et.containsOptTag tag
  | .ifRangeDate d, _, lm =>
    match lm with
    | none => false
    | some v => decide (lmValue parse_date v ≤ d)

/-- The example input `"a GMT "` of the C4 analysis: a header value with a
trailing space whose trimmed form ends in `" GMT"`. -/
def c4Input : List Char := "a GMT ".data

/-- The date string of the `If-Range` date example. -/
def sunDate : List Char := "Sun, 06 Nov 1994 08:49:37 GMT".data

/-- The later date string of the `If-Range` date example. -/
def monDate : List Char := "Mon, 07 Nov 1994 08:49:37 GMT".data

theorem parse_empty : ETagMatcher.parse [] = .matcher [] [] := by
  unfold ETagMatcher.parse parseLoop
  simp

/-- Claim C10: `TagMatcher.parse` terminates on every finite input: each
iteration of the parse loop (`parseStep`, the loop body of `parseLoop`)
strictly decreases the length of the remaining unparsed text, so the loop
condition eventually fails and `parse` is a total function (`parseLoop` is
accepted by exactly this measure). -/
theorem claim_C10 : ∀ value : List Char, value ≠ [] →
    (parseStep value).2.2.length < value.length :=
  fun value h => parseStep_rest_length value h

theorem claim_C10_witness :
    (parseStep ['a']).2.2.length < ([ 'a' ] : List Char).length :=
  claim_C10 ['a'] (by decide)

/-- Claim C8: `TagMatcher.parse ""` yields a `TagMatcher` whose strong and
weak lists are both empty, whose containment is false for every tag, and
which is distinct from both the `AnyETag` and the `NoETag` singletons. -/
theorem claim_C8 :
    ETagMatcher.parse [] = .matcher [] [] ∧
    (∀ t : Etag, (ETagMatcher.parse []).containsTag t = false) ∧
    ETagMatcher.parse [] ≠ .anyETag ∧
    ETagMatcher.parse [] ≠ .noETag := by
  refine ⟨parse_empty, ?_, ?_, ?_⟩ <;> simp [parse_empty, ETagVal.containsTag]

/-- Claim C2: the moment an extracted tag body is exactly `*`, the parse
loop returns the `AnyETag` singleton, discarding both accumulators (stated
for arbitrary accumulator contents); in particular `parse "*"` and
`parse '"a", *'` both yield `AnyETag`. -/
theorem claim_C2 :
    (∀ (results weak_results : List Etag) (value : List Char), value ≠ [] →
        (parseStep value).2.1 = ['*'] →
        parseLoop results weak_results value = .anyETag) ∧
    ETagMatcher.parse "*".data = .anyETag ∧
    ETagMatcher.parse "\"a\", *".data = .anyETag := by
  refine ⟨?_, ?_, ?_⟩
  · intro s w value hv hstar
    unfold parseLoop
    rw [dif_neg hv, if_pos hstar]
  · simp [ETagMatcher.parse, parseLoop, parseStep, extractTag, splitOnce, stripChars,
      lowerStartsWithW, pyWhitespace, stripDefault]
  · simp [ETagMatcher.parse, parseLoop, parseStep, extractTag, splitOnce, stripChars,
      lowerStartsWithW, pyWhitespace, stripDefault]

theorem claim_C2_witness : parseLoop [['x']] [['y']] ['*'] = .anyETag :=
  claim_C2.1 [['x']] [['y']] ['*'] (by decide) (by decide)

/-- Claim C3: parsing is total and tolerant of malformed syntax (in the
embedding the `ValueError` of the unterminated-quote branch is the handled
`none` case of `splitOnce`, so `parse` returns an `ETagVal` on every input);
in particular on the unterminated quote `'"abc'` it succeeds with strong
list exactly `["abc"]`, empty weak list, and no further tags parsed. -/
theorem claim_C3 : ETagMatcher.parse "\"abc".data = .matcher ["abc".data] [] := by
  simp [ETagMatcher.parse, parseLoop, parseStep, extractTag, splitOnce, stripChars,
    lowerStartsWithW, pyWhitespace, stripDefault]

/-- Claim C9: `IfRange.match` returns exactly the containment of the tag in
the held tag value — `last_modified` has no effect on the result — and the
value produced by `IfRange.parse` of the empty string matches every tag
(`AnyETag` containment is constantly true). -/
theorem claim_C9 : ∀ (parse_date : List Char → Int) (et : ETagVal) (tag : Option Etag)
    (lm lm' : Option LastModified),
    IfRangeVal.matchCond parse_date (.ifRange et) tag lm = et.containsOptTag tag ∧
    IfRangeVal.matchCond parse_date (.ifRange et) tag lm
      = IfRangeVal.matchCond parse_date (.ifRange et) tag lm' ∧
    IfRangeVal.matchCond parse_date (IfRange.parse parse_date []) tag lm = true := by
  intro pd et tag lm lm'
  refine ⟨rfl, rfl, ?_⟩
  have hp : IfRange.parse pd [] = .ifRange .anyETag := by simp [IfRange.parse]
  rw [hp]
  cases tag <;> simp [IfRangeVal.matchCond, ETagVal.containsOptTag, ETagVal.containsTag]

/-- Claim C4 counterexample: `IfRange.parse` tests `" GMT"` as a suffix of
the raw value, not of the trimmed value.  On `"a GMT "` the trimmed value
ends with `" GMT"`, yet `parse` takes the `ETagMatcher` branch (yielding
`IfRange(ETagMatcher(['a GMT '], []))`), not the date branch that the claim,
read literally, requires. -/
theorem claim_C4_counterexample :
    List.isSuffixOf [' ', 'G', 'M', 'T'] (stripDefault c4Input) = true ∧
    c4Input ≠ [] ∧
    IfRange.parse (fun _ => 0) c4Input = .ifRange (.matcher [c4Input] []) ∧
    IfRange.parse (fun _ => 0) c4Input ≠ .ifRangeDate ((fun _ => (0 : Int)) c4Input) := by
  have hsuf : List.isSuffixOf [' ', 'G', 'M', 'T'] c4Input = false := by decide
  have hne : c4Input ≠ [] := by decide
  have hp : IfRange.parse (fun _ => 0) c4Input = .ifRange (.matcher [c4Input] []) := by
    simp [IfRange.parse, hsuf, hne, ETagMatcher.parse, parseLoop, parseStep, extractTag,
      splitOnce, stripChars, lowerStartsWithW, pyWhitespace, stripDefault, c4Input]
    decide
  refine ⟨by decide, hne, hp, ?_⟩
  rw [hp]
  simp

/-- Claim C4 (amended): `IfRange.parse` dispatches on the raw value, with no
trimming: an empty value gives `IfRange(AnyETag)`; otherwise a value ending
with the literal suffix `" GMT"` gives `IfRangeDate` of the externally
parsed date of the value; otherwise `IfRange(ETagMatcher.parse(value))`. -/
theorem claim_C4 : ∀ (parse_date : List Char → Int) (value : List Char),
    (value = [] → IfRange.parse parse_date value = .ifRange .anyETag) ∧
    (value ≠ [] → List.isSuffixOf [' ', 'G', 'M', 'T'] value = true →
      IfRange.parse parse_date value = .ifRangeDate (parse_date value)) ∧
    (value ≠ [] → List.isSuffixOf [' ', 'G', 'M', 'T'] value = false →
      IfRange.parse parse_date value = .ifRange (ETagMatcher.parse value)) := by
  intro pd value
  refine ⟨?_, ?_, ?_⟩
  · intro h
    simp [IfRange.parse, h]
  · intro h1 h2
    simp [IfRange.parse, h1, h2]
  · intro h1 h2
    simp [IfRange.parse, h1, h2]

theorem claim_C4_witness :
    IfRange.parse (fun _ => (0 : Int)) " GMT".data = .ifRangeDate 0 :=
  (claim_C4 (fun _ => 0) " GMT".data).2.1 (by decide) (by decide)

/-- Claim C5: for a `IfRangeDate` holding date `d`, `match` is true iff a
last-modified value is present and (textual values going through the
external date parser first) is at most `d`; with a date parser that orders
the two example strings correctly, the value built from
`"Sun, 06 Nov 1994 08:49:37 GMT"` matches that same string and does not
match `"Mon, 07 Nov 1994 08:49:37 GMT"`. -/
theorem claim_C5 (parse_date : List Char → Int)
    (h : parse_date sunDate < parse_date monDate) :
    (∀ (d : Int) (tag : Option Etag) (lm : Option LastModified),
        IfRangeVal.matchCond parse_date (.ifRangeDate d) tag lm = true ↔
          ∃ v, lm = some v ∧ lmValue parse_date v ≤ d) ∧
    IfRangeVal.matchCond parse_date (.ifRangeDate (parse_date sunDate)) none
      (some (.str sunDate)) = true ∧
    IfRangeVal.matchCond parse_date (.ifRangeDate (parse_date sunDate)) none
      (some (.str monDate)) = false := by
  refine ⟨?_, ?_, ?_⟩
  · intro d tag lm
    cases lm with
    | none => simp [IfRangeVal.matchCond]
    | some v => simp [IfRangeVal.matchCond]
  · simp [IfRangeVal.matchCond, lmValue]
  · simp [IfRangeVal.matchCond, lmValue]
    omega

theorem claim_C5_witness :
    IfRangeVal.matchCond (fun s => if s = monDate then (1 : Int) else 0)
      (.ifRangeDate ((fun s => if s = monDate then (1 : Int) else 0) sunDate)) none
      (some (.str sunDate)) = true ∧
    IfRangeVal.matchCond (fun s => if s = monDate then (1 : Int) else 0)
      (.ifRangeDate ((fun s => if s = monDate then (1 : Int) else 0) sunDate)) none
      (some (.str monDate)) = false :=
  ⟨(claim_C5 _ (by decide)).2.1, (claim_C5 _ (by decide)).2.2⟩

theorem foldl_append_weakQuote (ws : List Etag) :
    ∀ init : List (List Char),
      ws.foldl (fun items w => items ++ [weakQuoteItem w]) init
        = init ++ ws.map weakQuoteItem := by
  induction ws with
  | nil => intro init; simp
  | cons w ws ih =>
    intro init
    simp only [List.foldl_cons, List.map_cons]
    rw [ih]
    simp

/-- Claim C6: the string form of a matcher with strong tags `s1..sn` and
weak tags `w1..wm` is the `", "`-joined list in which each strong tag
renders as `"si"` and each weak tag follows, rendered as `W/"wj"`. -/
theorem claim_C6 : ∀ etags weak_etags : List Etag,
    ETagMatcher.strOf etags weak_etags
      = joinCS (etags.map quoteItem ++ weak_etags.map weakQuoteItem) := by
  intro e w
  unfold ETagMatcher.strOf
  rw [foldl_append_weakQuote]

theorem elements_nil : elements [] = [] := by
  unfold elements
  simp

theorem elements_step_empty (value : List Char) (hv : value ≠ [])
    (he : (parseStep value).2.1 = []) :
    elements value = elements (parseStep value).2.2 := by
  conv_lhs => rw [elements]
  rw [dif_neg hv, if_pos he]

theorem elements_step_cons (value : List Char) (hv : value ≠ [])
    (he : (parseStep value).2.1 ≠ []) :
    elements value = (parseStep value).2.1 :: elements (parseStep value).2.2 := by
  conv_lhs => rw [elements]
  rw [dif_neg hv, if_neg he]

theorem parseLoop_matcher_mem (t : Etag) :
    ∀ (n : Nat) (value : List Char), value.length ≤ n →
      ∀ s w s' w', parseLoop s w value = .matcher s' w' →
        ((t ∈ s' ∨ t ∈ w') ↔ (t ∈ s ∨ t ∈ w ∨ t ∈ elements value)) := by
  intro n
  induction n with
  | zero =>
    intro value hlen s w s' w' hp
    have hv : value = [] := List.length_eq_zero.mp (Nat.le_zero.mp hlen)
    subst hv
    unfold parseLoop at hp
    simp at hp
    obtain ⟨hs, hw⟩ := hp
    subst hs; subst hw
    simp [elements_nil]
  | succ n ih =>
    intro value hlen s w s' w' hp
    by_cases hv : value = []
    · subst hv
      unfold parseLoop at hp
      simp at hp
      obtain ⟨hs, hw⟩ := hp
      subst hs; subst hw
      simp [elements_nil]
    · have hrest : (parseStep value).2.2.length ≤ n := by
        have := parseStep_rest_length value hv
        omega
      unfold parseLoop at hp
      rw [dif_neg hv] at hp
      by_cases hstar : (parseStep value).2.1 = ['*']
      · rw [if_pos hstar] at hp
        exact absurd hp (by simp)
      · rw [if_neg hstar] at hp
        by_cases hemp : (parseStep value).2.1 = []
        · rw [if_pos hemp] at hp
          rw [elements_step_empty value hv hemp]
          exact ih (parseStep value).2.2 hrest s w s' w' hp
        · rw [if_neg hemp] at hp
          rw [elements_step_cons value hv hemp]
          by_cases hwk : (parseStep value).1 = true
          · rw [if_pos hwk] at hp
            have hih := ih (parseStep value).2.2 hrest s (w ++ [(parseStep value).2.1]) s' w' hp
            simp only [List.mem_append, List.mem_cons, List.mem_singleton] at hih ⊢
            tauto
          · rw [if_neg hwk] at hp
            have hih := ih (parseStep value).2.2 hrest (s ++ [(parseStep value).2.1]) w s' w' hp
            simp only [List.mem_append, List.mem_cons, List.mem_singleton] at hih ⊢
            tauto

/-- Claim C1: whenever `TagMatcher.parse` of a non-empty value yields a
matcher, the matcher's containment of `t` holds exactly when `t` is one of
the comma-separated tag bodies extracted from the value (`elements`, which
carries no strong/weak distinction), and equally exactly when `t` is in the
strong list or in the weak list. -/
theorem claim_C1 : ∀ (value : List Char) (t : Etag) (s w : List Etag),
    value ≠ [] → ETagMatcher.parse value = .matcher s w →
    ((ETagVal.matcher s w).containsTag t = true ↔ t ∈ elements value) ∧
    ((ETagVal.matcher s w).containsTag t = true ↔ (t ∈ s ∨ t ∈ w)) := by
  intro value t s w hv hp
  have hmem := parseLoop_matcher_mem t value.length value le_rfl [] [] s w hp
  simp only [List.not_mem_nil, false_or] at hmem
  have hct : (ETagVal.matcher s w).containsTag t = true ↔ (t ∈ s ∨ t ∈ w) := by
    simp [ETagVal.containsTag]
  exact ⟨hct.trans hmem, hct⟩

theorem claim_C1_witness :
    ((ETagVal.matcher ["a".data] ["b".data]).containsTag "b".data = true
        ↔ "b".data ∈ elements "\"a\", W/\"b\"".data) ∧
    ((ETagVal.matcher ["a".data] ["b".data]).containsTag "b".data = true
        ↔ ("b".data ∈ [ "a".data ] ∨ "b".data ∈ [ "b".data ])) :=
  claim_C1 "\"a\", W/\"b\"".data "b".data ["a".data] ["b".data] (by decide)
    (by simp [ETagMatcher.parse, parseLoop, parseStep, extractTag, splitOnce, stripChars,
      lowerStartsWithW, pyWhitespace, stripDefault])

theorem parseLoop_base (s w : List Etag) : parseLoop s w [] = .matcher s w := by
  conv_lhs => rw [parseLoop]
  simp

theorem parseLoop_step_strong (s w : List Etag) (value : List Char) (hv : value ≠ [])
    (hstar : (parseStep value).2.1 ≠ ['*']) (hne : (parseStep value).2.1 ≠ [])
    (hwk : (parseStep value).1 = false) :
    parseLoop s w value
      = parseLoop (s ++ [(parseStep value).2.1]) w (parseStep value).2.2 := by
  conv_lhs => rw [parseLoop]
  simp only [dif_neg hv, if_neg hstar, if_neg hne, hwk, Bool.false_eq_true, if_false]

theorem lowerStartsWithW_quote (l : List Char) : lowerStartsWithW ('"' :: l) = false := by
  unfold lowerStartsWithW
  simp only [List.map_cons]
  rw [show Char.toLower '"' = '"' by decide]
  simp [List.isPrefixOf]

theorem splitOnce_append (c : Char) (a b : List Char) (h : c ∉ a) :
    splitOnce c (a ++ c :: b) = some (a, b) := by
  induction a with
  | nil => simp [splitOnce]
  | cons x xs ih =>
    have hx : x ≠ c := fun he => h (he ▸ List.mem_cons_self x xs)
    simp only [List.cons_append, splitOnce, if_neg hx]
    simp only [List.append_eq]
    rw [ih (fun hm => h (List.mem_cons_of_mem _ hm))]

theorem joinCS_cons_cons (x y : List Char) (ys : List (List Char)) :
    joinCS (x :: y :: ys) = x ++ ',' :: ' ' :: joinCS (y :: ys) := rfl

theorem parseStep_quoted (t sep : List Char) (h : '"' ∉ t) :
    parseStep ('"' :: (t ++ '"' :: sep)) = (false, t, stripChars [',', ' '] sep) := by
  have hw : lowerStartsWithW ('"' :: (t ++ '"' :: sep)) = false := lowerStartsWithW_quote _
  have hx : extractTag ('"' :: (t ++ '"' :: sep)) = (t, stripChars [',', ' '] sep) := by
    unfold extractTag
    simp [splitOnce_append '"' t sep h]
  unfold parseStep
  simp [hw, hx]

theorem joinCS_quote_shape : ∀ ts : List Etag, ts ≠ [] →
    ∃ mid, joinCS (ts.map quoteItem) = '"' :: (mid ++ ['"']) := by
  intro ts
  induction ts with
  | nil => intro h; exact absurd rfl h
  | cons t ts ih =>
    intro _
    cases ts with
    | nil => exact ⟨t, by simp [joinCS, quoteItem]⟩
    | cons t2 ts2 =>
      obtain ⟨mid, hmid⟩ := ih (by simp)
      refine ⟨t ++ '"' :: ',' :: ' ' :: '"' :: mid, ?_⟩
      simp only [List.map_cons] at hmid ⊢
      rw [joinCS_cons_cons, hmid]
      simp [quoteItem]

theorem stripCS_sep (mid : List Char) :
    stripChars [',', ' '] (',' :: ' ' :: ('"' :: (mid ++ ['"']))) = '"' :: (mid ++ ['"']) := by
  unfold stripChars
  have h1 : List.dropWhile (fun c => [',', ' '].contains c)
      (',' :: ' ' :: ('"' :: (mid ++ ['"']))) = '"' :: (mid ++ ['"']) := by
    rw [List.dropWhile_cons]
    simp only [show ([',', ' '].contains ',') = true by decide, if_true]
    rw [List.dropWhile_cons]
    simp only [show ([',', ' '].contains ' ') = true by decide, if_true]
    rw [List.dropWhile_cons]
    simp only [show ([',', ' '].contains '"') = false by decide]
    simp
  rw [h1]
  have h2 : ('"' :: (mid ++ ['"'])).reverse = '"' :: ('"' :: mid).reverse := by
    simp
  rw [h2]
  rw [List.dropWhile_cons]
  simp only [show ([',', ' '].contains '"') = false by decide]
  simp only [Bool.false_eq_true, if_false]
  rw [← h2, List.reverse_reverse]

theorem parseLoop_render (tags : List Etag) :
    ∀ acc : List Etag,
      (∀ t ∈ tags, t ≠ [] ∧ '"' ∉ t ∧ ',' ∉ t ∧ t ≠ ['*']) →
      parseLoop acc [] (joinCS (tags.map quoteItem)) = .matcher (acc ++ tags) [] := by
  induction tags with
  | nil =>
    intro acc _
    simp only [List.map_nil, joinCS, parseLoop_base, List.append_nil]
  | cons t ts ih =>
    intro acc hgood
    obtain ⟨ht1, ht2, _, ht4⟩ := hgood t (by simp)
    have hgood' : ∀ x ∈ ts, x ≠ [] ∧ '"' ∉ x ∧ ',' ∉ x ∧ x ≠ ['*'] := by
      intro x hx
      exact hgood x (by simp [hx])
    cases ts with
    | nil =>
      have hval : joinCS ([t].map quoteItem) = '"' :: (t ++ '"' :: []) := by
        simp [joinCS, quoteItem]
      rw [hval]
      have hstep : parseStep ('"' :: (t ++ '"' :: [])) = (false, t, []) := by
        rw [parseStep_quoted t [] ht2]
        rfl
      rw [parseLoop_step_strong acc [] _ (by simp) (by rw [hstep]; exact ht4)
        (by rw [hstep]; exact ht1) (by rw [hstep])]
      rw [hstep]
      simp [parseLoop_base]
    | cons t2 ts2 =>
      obtain ⟨mid, hmid⟩ := joinCS_quote_shape (t2 :: ts2) (by simp)
      have hval : joinCS ((t :: t2 :: ts2).map quoteItem)
          = '"' :: (t ++ '"' :: (',' :: ' ' :: ('"' :: (mid ++ ['"'])))) := by
        simp only [List.map_cons] at hmid ⊢
        rw [joinCS_cons_cons, hmid]
        simp [quoteItem]
      rw [hval]
      have hstep : parseStep ('"' :: (t ++ '"' :: (',' :: ' ' :: ('"' :: (mid ++ ['"'])))))
          = (false, t, '"' :: (mid ++ ['"'])) := by
        rw [parseStep_quoted t _ ht2, stripCS_sep mid]
      rw [parseLoop_step_strong acc [] _ (by simp) (by rw [hstep]; exact ht4)
        (by rw [hstep]; exact ht1) (by rw [hstep])]
      rw [hstep]
      simp only []
      rw [← hmid, ih (acc ++ [t]) hgood']
      simp

/-- Claim C7 (round-trip): for a matcher built from well-formed quoted
strong tags only (non-empty bodies without `"` or `,`, none equal to `*`,
empty weak list), parsing the matcher's own string form yields a matcher
with the same strong-tag list (hence the same set of strong tags) and an
empty weak list. -/
theorem claim_C7 : ∀ tags : List Etag,
    (∀ t ∈ tags, t ≠ [] ∧ '"' ∉ t ∧ ',' ∉ t ∧ t ≠ ['*']) →
    ETagMatcher.parse (ETagMatcher.strOf tags []) = .matcher tags [] := by
  intro tags h
  have hstr : ETagMatcher.strOf tags [] = joinCS (tags.map quoteItem) := by
    unfold ETagMatcher.strOf
    simp
  rw [hstr]
  have := parseLoop_render tags [] h
  simpa using this

theorem claim_C7_witness :
    ETagMatcher.parse (ETagMatcher.strOf ["ab".data, "c".data] [])
      = .matcher ["ab".data, "c".data] [] :=
  claim_C7 ["ab".data, "c".data] (by decide)
